import Mathlib

/-
Verification of the selective diff-reconciliation engine of the grammr tool
(internal/ui/app.go): change-unit construction (parseDiffIntoChanges),
reconstruction (buildReviewedTextFromDiffs), and the review-mode state
machine (handleReviewMode).  Strings are modelled as lists of characters;
the external diff primitive (go-diff/diffmatchpatch) is modelled as an
arbitrary function producing tagged spans subject to the lossless-coverage
contract stated in the spec.
-/

namespace Grammr

/-- Operation tag of a diff span, mirroring diffmatchpatch.Operation. -/
inductive DiffOp where
  | equal : DiffOp
  | delete : DiffOp
  | insert : DiffOp
deriving DecidableEq, Repr

/-- A diff span: a tagged contiguous text fragment, mirroring diffmatchpatch.Diff. -/
structure Diff where
  type : DiffOp
  Text : List Char
deriving DecidableEq, Repr

/-- A reviewable change, mirroring the DiffChange struct of app.go. -/
structure DiffChange where
  type : DiffOp
  Text : List Char
  Applied : Bool
  Skipped : Bool
deriving DecidableEq, Repr

/-- The literal separator the source splices between the delete and insert
texts of a paired change: a space, U+2192, a space. -/
def arrow : List Char := [' ', '→', ' ']

/-- Executable check that the first list is a leading segment of the second,
mirroring the byte-level matching done by strings.Contains. -/
def isPre : List Char → List Char → Bool
  | [], _ => true
  | _ :: _, [] => false
  | a :: as, b :: bs => a == b && isPre as bs

/-- Executable model of strings.Contains(text, " → ") from the source. -/
def containsArrow : List Char → Bool
  | [] => false
  | c :: rest => isPre arrow (c :: rest) || containsArrow rest

/-- Model of the span-scanning loop of parseDiffIntoChanges (app.go):
skip Equal spans, pair a Delete immediately followed by an Insert into one
change whose text is deleteText ++ " → " ++ insertText, otherwise emit the
span as a single change, all with both decision flags false. -/
def parseDiffSpans : List Diff → List DiffChange
  | [] => []
  | ⟨DiffOp.equal, _⟩ :: rest => parseDiffSpans rest
  | ⟨DiffOp.delete, t⟩ :: ⟨DiffOp.insert, t2⟩ :: rest2 =>
      ⟨DiffOp.delete, t ++ arrow ++ t2, false, false⟩ :: parseDiffSpans rest2
  | ⟨DiffOp.delete, t⟩ :: rest =>
      ⟨DiffOp.delete, t, false, false⟩ :: parseDiffSpans rest
  | ⟨DiffOp.insert, t⟩ :: rest =>
      ⟨DiffOp.insert, t, false, false⟩ :: parseDiffSpans rest

/-- Model of the replay loop of buildReviewedTextFromDiffs (app.go), walking
the span list while consuming decisions from the front of the change list
exactly as the Go changeIdx cursor does (a mismatching change is consulted
but not consumed). -/
def buildReviewedSpans : List Diff → List DiffChange → List Char
  | [], _ => []
  | ⟨DiffOp.equal, t⟩ :: rest, chs => t ++ buildReviewedSpans rest chs
  | ⟨DiffOp.delete, t⟩ :: ⟨DiffOp.insert, t2⟩ :: rest2, chs =>
      match chs with
      | ch :: chTail =>
          if containsArrow ch.Text then
            (if ch.Applied then t2 else t) ++ buildReviewedSpans rest2 chTail
          else
            t ++ buildReviewedSpans rest2 (ch :: chTail)
      | [] => t ++ buildReviewedSpans rest2 []
  | ⟨DiffOp.delete, t⟩ :: rest, chs =>
      match chs with
      | ch :: chTail =>
          if ch.type = DiffOp.delete ∧ containsArrow ch.Text = false then
            (if ch.Skipped then t else []) ++ buildReviewedSpans rest chTail
          else
            t ++ buildReviewedSpans rest (ch :: chTail)
      | [] => t ++ buildReviewedSpans rest []
  | ⟨DiffOp.insert, t⟩ :: rest, chs =>
      match chs with
      | ch :: chTail =>
          if ch.type = DiffOp.insert ∧ containsArrow ch.Text = false then
            (if ch.Applied then t else []) ++ buildReviewedSpans rest chTail
          else
            buildReviewedSpans rest (ch :: chTail)
      | [] => buildReviewedSpans rest []

/-- Concatenation of the Equal and Delete span texts: by the diff contract
this is the original string. -/
def reconstructOrig : List Diff → List Char
  | [] => []
  | ⟨DiffOp.equal, t⟩ :: rest => t ++ reconstructOrig rest
  | ⟨DiffOp.delete, t⟩ :: rest => t ++ reconstructOrig rest
  | ⟨DiffOp.insert, _⟩ :: rest => reconstructOrig rest

/-- Concatenation of the Equal and Insert span texts: by the diff contract
this is the corrected string. -/
def reconstructCorr : List Diff → List Char
  | [] => []
  | ⟨DiffOp.equal, t⟩ :: rest => t ++ reconstructCorr rest
  | ⟨DiffOp.delete, _⟩ :: rest => reconstructCorr rest
  | ⟨DiffOp.insert, t⟩ :: rest => t ++ reconstructCorr rest

/-- Lossless-coverage contract of the external diff primitive (spec §3). -/
def DiffValid (diff : List Char → List Char → List Diff) : Prop :=
  ∀ a b, reconstructOrig (diff a b) = a ∧ reconstructCorr (diff a b) = b

/-- The change-unit builder of the source: diff the two strings with the
external primitive, then group the spans. -/
def parseDiffIntoChanges (diff : List Char → List Char → List Diff)
    (original corrected : List Char) : List DiffChange :=
  parseDiffSpans (diff original corrected)

/-- The reconstruction engine of the source: rediff the two strings with the
(deterministic) external primitive, then replay the spans against the
decision list. -/
def buildReviewedTextFromDiffs (diff : List Char → List Char → List Diff)
    (original corrected : List Char) (changes : List DiffChange) : List Char :=
  buildReviewedSpans (diff original corrected) changes

/-- A simple diff primitive satisfying the contract: one Equal span for
identical inputs, otherwise delete all of the first string and insert all of
the second. -/
def naiveDiff (a b : List Char) : List Diff :=
  if a = b then (if a = [] then [] else [⟨DiffOp.equal, a⟩])
  else (if a = [] then [] else [⟨DiffOp.delete, a⟩])
    ++ (if b = [] then [] else [⟨DiffOp.insert, b⟩])

/-- Decision map setting every change to Applied, as the accept-all review does. -/
def allApplied (chs : List DiffChange) : List DiffChange :=
  chs.map fun ch => { ch with Applied := true, Skipped := false }

/-- Decision map setting every change to Skipped, as the reject-all review does. -/
def allSkipped (chs : List DiffChange) : List DiffChange :=
  chs.map fun ch => { ch with Applied := false, Skipped := true }

end Grammr

namespace Grammr

/-- Reduction of the replay walk on a Delete span not followed by an Insert. -/
theorem replay_delete_cons (t : List Char) (rest : List Diff) (chs : List DiffChange)
    (h : ∀ (t2 : List Char) (rest2 : List Diff),
      rest = ({ type := DiffOp.insert, Text := t2 } : Diff) :: rest2 → False) :
    buildReviewedSpans (⟨DiffOp.delete, t⟩ :: rest) chs =
      match chs with
      | ch :: chTail =>
          if ch.type = DiffOp.delete ∧ containsArrow ch.Text = false then
            (if ch.Skipped then t else []) ++ buildReviewedSpans rest chTail
          else
            t ++ buildReviewedSpans rest (ch :: chTail)
      | [] => t ++ buildReviewedSpans rest [] := by
  match rest with
  | [] => cases chs <;> simp [buildReviewedSpans]
  | ⟨DiffOp.equal, t2⟩ :: rest2 => cases chs <;> simp [buildReviewedSpans]
  | ⟨DiffOp.delete, t2⟩ :: rest2 => cases chs <;> simp [buildReviewedSpans]
  | ⟨DiffOp.insert, t2⟩ :: rest2 => exact absurd rfl (h t2 rest2)

/-- Reduction of the change builder on a Delete span not followed by an Insert. -/
theorem parse_delete_cons (t : List Char) (rest : List Diff)
    (h : ∀ (t2 : List Char) (rest2 : List Diff),
      rest = ({ type := DiffOp.insert, Text := t2 } : Diff) :: rest2 → False) :
    parseDiffSpans (⟨DiffOp.delete, t⟩ :: rest) =
      ⟨DiffOp.delete, t, false, false⟩ :: parseDiffSpans rest := by
  match rest with
  | [] => simp [parseDiffSpans]
  | ⟨DiffOp.equal, t2⟩ :: rest2 => simp [parseDiffSpans]
  | ⟨DiffOp.delete, t2⟩ :: rest2 => simp [parseDiffSpans]
  | ⟨DiffOp.insert, t2⟩ :: rest2 => exact absurd rfl (h t2 rest2)

/-- Replaying against a change list in which every change is Skipped and not
Applied reproduces the original side of the span list, whatever the spans. -/
theorem replay_skipped_like (ds : List Diff) (chs : List DiffChange) :
    (∀ ch ∈ chs, ch.Applied = false ∧ ch.Skipped = true) →
    buildReviewedSpans ds chs = reconstructOrig ds := by
  induction ds, chs using buildReviewedSpans.induct with
  | case1 chs => intro _; simp [buildReviewedSpans, reconstructOrig]
  | case2 t rest chs ih =>
      intro h
      simp [buildReviewedSpans, reconstructOrig, ih h]
  | case3 t t2 rest2 ch chTail harr ih =>
      intro h
      have hch := h ch (List.mem_cons_self _ _)
      simp [buildReviewedSpans, reconstructOrig, harr, hch.1,
        ih (fun c hc => h c (List.mem_cons_of_mem _ hc))]
  | case4 t t2 rest2 ch chTail harr ih =>
      intro h
      simp [buildReviewedSpans, reconstructOrig, harr, ih h]
  | case5 t t2 rest2 ih =>
      intro _
      simp [buildReviewedSpans, reconstructOrig, ih (by simp)]
  | case6 t rest hni ch chTail hcond ih =>
      intro h
      have hch := h ch (List.mem_cons_self _ _)
      rw [replay_delete_cons t rest _ hni]
      simp [reconstructOrig, hcond, hch.2,
        ih (fun c hc => h c (List.mem_cons_of_mem _ hc))]
  | case7 t rest hni ch chTail hcond ih =>
      intro h
      rw [replay_delete_cons t rest _ hni]
      simp [reconstructOrig, hcond, ih h]
  | case8 t rest hni ih =>
      intro _
      rw [replay_delete_cons t rest _ hni]
      simp [reconstructOrig, ih (by simp)]
  | case9 t rest ch chTail hcond ih =>
      intro h
      have hch := h ch (List.mem_cons_self _ _)
      simp [buildReviewedSpans, reconstructOrig, hcond, hch.1,
        ih (fun c hc => h c (List.mem_cons_of_mem _ hc))]
  | case10 t rest ch chTail hcond ih =>
      intro h
      simp [buildReviewedSpans, reconstructOrig, hcond, ih h]
  | case11 t rest ih =>
      intro _
      simp [buildReviewedSpans, reconstructOrig, ih (by simp)]

end Grammr

namespace Grammr

/-- The arrow marker is found at the front of any list it starts. -/
theorem isPre_arrow_append (b : List Char) : isPre arrow (arrow ++ b) = true := by
  simp [arrow, isPre]

/-- The arrow marker is found inside any list that splices it in. -/
theorem containsArrow_append_arrow (a b : List Char) :
    containsArrow (a ++ arrow ++ b) = true := by
  induction a with
  | nil =>
      show containsArrow (arrow ++ b) = true
      rw [show arrow ++ b = ' ' :: ('→' :: ' ' :: b) from rfl]
      rw [containsArrow]
      rw [show (' ' : Char) :: '→' :: ' ' :: b = arrow ++ b from rfl]
      simp [isPre_arrow_append]
  | cons c a ih =>
      rw [List.cons_append, List.cons_append, containsArrow]
      rw [← List.cons_append, ← List.cons_append]
      simp only [List.cons_append, ih, Bool.or_true]

/-- A span list is arrow-free when no Delete or Insert span text contains the
literal " → " marker the source uses to tag paired changes. -/
def ArrowFreeSpans (ds : List Diff) : Prop :=
  ∀ d ∈ ds, d.type ≠ DiffOp.equal → containsArrow d.Text = false

theorem arrowFree_tail {d : Diff} {ds : List Diff} (h : ArrowFreeSpans (d :: ds)) :
    ArrowFreeSpans ds :=
  fun x hx => h x (List.mem_cons_of_mem _ hx)

/-- Replaying every change as Applied over an arrow-free span list reproduces
the corrected side of the spans. -/
theorem replay_all_applied (ds : List Diff) :
    ArrowFreeSpans ds →
    buildReviewedSpans ds (allApplied (parseDiffSpans ds)) = reconstructCorr ds := by
  induction ds using parseDiffSpans.induct with
  | case1 => intro _; simp [parseDiffSpans, buildReviewedSpans, reconstructCorr, allApplied]
  | case2 t rest ih =>
      intro h
      simp only [parseDiffSpans, buildReviewedSpans, reconstructCorr]
      rw [ih (arrowFree_tail h)]
  | case3 t t2 rest2 ih =>
      intro h
      simp only [parseDiffSpans, allApplied, List.map_cons, buildReviewedSpans]
      rw [show containsArrow (t ++ arrow ++ t2) = true from containsArrow_append_arrow t t2]
      simp only [if_true, reconstructCorr]
      rw [← allApplied, ih (arrowFree_tail (arrowFree_tail h))]
  | case4 t rest hni ih =>
      intro h
      have hcf : containsArrow t = false :=
        h ⟨DiffOp.delete, t⟩ (List.mem_cons_self _ _) (by simp)
      rw [parse_delete_cons t rest hni]
      simp only [allApplied, List.map_cons]
      rw [replay_delete_cons t rest _ hni]
      simp only [hcf]
      rw [← allApplied]
      simp only [reconstructCorr]
      rw [ih (arrowFree_tail h)]
      simp
  | case5 t rest ih =>
      intro h
      have hcf : containsArrow t = false :=
        h ⟨DiffOp.insert, t⟩ (List.mem_cons_self _ _) (by simp)
      simp only [parseDiffSpans, allApplied, List.map_cons, buildReviewedSpans, hcf]
      rw [← allApplied]
      simp only [reconstructCorr]
      rw [ih (arrowFree_tail h)]
      simp

end Grammr

namespace Grammr

/-- Appending changes that are all Skipped and not Applied after any change
list leaves the replay result unchanged: missing decisions and appended
skip decisions act identically (conservatively). -/
theorem replay_append_skipped (ds : List Diff) (chs : List DiffChange) :
    ∀ tl : List DiffChange, (∀ ch ∈ tl, ch.Applied = false ∧ ch.Skipped = true) →
    buildReviewedSpans ds (chs ++ tl) = buildReviewedSpans ds chs := by
  induction ds, chs using buildReviewedSpans.induct with
  | case1 chs => intro tl h; simp [buildReviewedSpans]
  | case2 t rest chs ih =>
      intro tl h
      simp only [buildReviewedSpans]
      rw [ih tl h]
  | case3 t t2 rest2 ch chTail harr ih =>
      intro tl h
      simp only [List.cons_append, buildReviewedSpans]
      rw [if_pos harr, if_pos harr, ih tl h]
  | case4 t t2 rest2 ch chTail harr ih =>
      intro tl h
      simp only [List.cons_append, buildReviewedSpans]
      rw [if_neg harr, if_neg harr, ← List.cons_append, ih tl h]
  | case5 t t2 rest2 ih =>
      intro tl h
      cases tl with
      | nil => simp
      | cons c tl2 =>
          have hc := h c (List.mem_cons_self _ _)
          simp only [List.nil_append, buildReviewedSpans]
          by_cases harr : containsArrow c.Text = true
          · rw [if_pos harr, hc.1]
            simp only [Bool.false_eq_true, if_false]
            rw [show buildReviewedSpans rest2 tl2 =
              buildReviewedSpans rest2 ([] ++ tl2) from by simp]
            rw [ih tl2 (fun x hx => h x (List.mem_cons_of_mem _ hx))]
          · rw [if_neg harr]
            rw [show buildReviewedSpans rest2 (c :: tl2) =
              buildReviewedSpans rest2 ([] ++ (c :: tl2)) from by simp]
            rw [ih (c :: tl2) h]
  | case6 t rest hni ch chTail hcond ih =>
      intro tl h
      rw [List.cons_append, replay_delete_cons t rest _ hni,
        replay_delete_cons t rest _ hni]
      simp only []
      rw [if_pos hcond, if_pos hcond, ih tl h]
  | case7 t rest hni ch chTail hcond ih =>
      intro tl h
      rw [List.cons_append, replay_delete_cons t rest _ hni,
        replay_delete_cons t rest _ hni]
      simp only []
      rw [if_neg hcond, if_neg hcond, ← List.cons_append, ih tl h]
  | case8 t rest hni ih =>
      intro tl h
      rw [List.nil_append, replay_delete_cons t rest _ hni,
        replay_delete_cons t rest _ hni]
      cases tl with
      | nil => rfl
      | cons c tl2 =>
          have hc := h c (List.mem_cons_self _ _)
          simp only []
          by_cases hcond : (c.type = DiffOp.delete ∧ containsArrow c.Text = false)
          · rw [if_pos hcond, hc.2]
            simp only [if_true]
            rw [show buildReviewedSpans rest tl2 =
              buildReviewedSpans rest ([] ++ tl2) from by simp]
            rw [ih tl2 (fun x hx => h x (List.mem_cons_of_mem _ hx))]
          · rw [if_neg hcond]
            rw [show buildReviewedSpans rest (c :: tl2) =
              buildReviewedSpans rest ([] ++ (c :: tl2)) from by simp]
            rw [ih (c :: tl2) h]
  | case9 t rest ch chTail hcond ih =>
      intro tl h
      simp only [List.cons_append, buildReviewedSpans]
      rw [if_pos hcond, if_pos hcond, ih tl h]
  | case10 t rest ch chTail hcond ih =>
      intro tl h
      simp only [List.cons_append, buildReviewedSpans]
      rw [if_neg hcond, if_neg hcond, ← List.cons_append, ih tl h]
  | case11 t rest ih =>
      intro tl h
      simp only [List.nil_append, buildReviewedSpans]
      cases tl with
      | nil => rfl
      | cons c tl2 =>
          have hc := h c (List.mem_cons_self _ _)
          dsimp only
          by_cases hcond : (c.type = DiffOp.insert ∧ containsArrow c.Text = false)
          · rw [if_pos hcond, hc.1]
            simp only [Bool.false_eq_true, if_false, List.nil_append]
            rw [show buildReviewedSpans rest tl2 =
              buildReviewedSpans rest ([] ++ tl2) from by simp]
            rw [ih tl2 (fun x hx => h x (List.mem_cons_of_mem _ hx))]
          · rw [if_neg hcond]
            rw [show buildReviewedSpans rest (c :: tl2) =
              buildReviewedSpans rest ([] ++ (c :: tl2)) from by simp]
            rw [ih (c :: tl2) h]

end Grammr

namespace Grammr

theorem take_eq_of_take_succ_eq {α : Type} {l1 l2 : List α} {n : Nat}
    (h : l1.take (n + 1) = l2.take (n + 1)) : l1.take n = l2.take n := by
  have h1 : l1.take n = (l1.take (n + 1)).take n := by
    rw [List.take_take, Nat.min_eq_left (Nat.le_succ n)]
  have h2 : l2.take n = (l2.take (n + 1)).take n := by
    rw [List.take_take, Nat.min_eq_left (Nat.le_succ n)]
  rw [h1, h2, h]

theorem take_cons_eq_of_take_eq {α : Type} {l1 l2 : List α} {n : Nat} (c : α)
    (h : l1.take n = l2.take n) : (c :: l1).take n = (c :: l2).take n := by
  cases n with
  | zero => simp
  | succ m =>
      simp only [List.take_succ_cons]
      rw [take_eq_of_take_succ_eq h]

/-- Replay reads no change beyond the number of change units built from the
span list: two change lists agreeing on that prefix replay identically. -/
theorem replay_take_invariant (ds : List Diff) :
    ∀ chs1 chs2 : List DiffChange,
    chs1.take (parseDiffSpans ds).length = chs2.take (parseDiffSpans ds).length →
    buildReviewedSpans ds chs1 = buildReviewedSpans ds chs2 := by
  induction ds using parseDiffSpans.induct with
  | case1 => intro chs1 chs2 _; simp [buildReviewedSpans]
  | case2 t rest ih =>
      intro chs1 chs2 h
      simp only [buildReviewedSpans]
      rw [ih chs1 chs2 (by simpa [parseDiffSpans] using h)]
  | case3 t t2 rest2 ih =>
      intro chs1 chs2 h
      simp only [parseDiffSpans, List.length_cons] at h
      cases chs1 with
      | nil =>
          cases chs2 with
          | nil => rfl
          | cons c2 cs2 => simp [List.take_succ_cons] at h
      | cons c1 cs1 =>
          cases chs2 with
          | nil => simp [List.take_succ_cons] at h
          | cons c2 cs2 =>
              simp only [List.take_succ_cons, List.cons.injEq] at h
              obtain ⟨rfl, htail⟩ := h
              simp only [buildReviewedSpans]
              by_cases harr : containsArrow c1.Text = true
              · rw [if_pos harr, if_pos harr, ih cs1 cs2 htail]
              · rw [if_neg harr, if_neg harr,
                  ih (c1 :: cs1) (c1 :: cs2) (take_cons_eq_of_take_eq c1 htail)]
  | case4 t rest hni ih =>
      intro chs1 chs2 h
      rw [parse_delete_cons t rest hni, List.length_cons] at h
      rw [replay_delete_cons t rest _ hni, replay_delete_cons t rest _ hni]
      cases chs1 with
      | nil =>
          cases chs2 with
          | nil => rfl
          | cons c2 cs2 => simp [List.take_succ_cons] at h
      | cons c1 cs1 =>
          cases chs2 with
          | nil => simp [List.take_succ_cons] at h
          | cons c2 cs2 =>
              simp only [List.take_succ_cons, List.cons.injEq] at h
              obtain ⟨rfl, htail⟩ := h
              dsimp only
              by_cases hcond : (c1.type = DiffOp.delete ∧ containsArrow c1.Text = false)
              · rw [if_pos hcond, if_pos hcond, ih cs1 cs2 htail]
              · rw [if_neg hcond, if_neg hcond,
                  ih (c1 :: cs1) (c1 :: cs2) (take_cons_eq_of_take_eq c1 htail)]
  | case5 t rest ih =>
      intro chs1 chs2 h
      simp only [parseDiffSpans, List.length_cons] at h
      simp only [buildReviewedSpans]
      cases chs1 with
      | nil =>
          cases chs2 with
          | nil => rfl
          | cons c2 cs2 => simp [List.take_succ_cons] at h
      | cons c1 cs1 =>
          cases chs2 with
          | nil => simp [List.take_succ_cons] at h
          | cons c2 cs2 =>
              simp only [List.take_succ_cons, List.cons.injEq] at h
              obtain ⟨rfl, htail⟩ := h
              dsimp only
              by_cases hcond : (c1.type = DiffOp.insert ∧ containsArrow c1.Text = false)
              · rw [if_pos hcond, if_pos hcond, ih cs1 cs2 htail]
              · rw [if_neg hcond, if_neg hcond,
                  ih (c1 :: cs1) (c1 :: cs2) (take_cons_eq_of_take_eq c1 htail)]

end Grammr

namespace Grammr

/-- Spec-level change unit: an exhaustive tagged variant (spec §3). -/
inductive ChangeUnit where
  | substitution (original proposed : List Char) : ChangeUnit
  | deletion (original : List Char) : ChangeUnit
  | insertion (proposed : List Char) : ChangeUnit
deriving DecidableEq, Repr

/-- Spec-side change-unit builder, written from the words of spec §4.1: scan
spans left to right; skip Equal; merge a Delete immediately followed by an
Insert into a single Substitution, consuming both spans; otherwise emit a
Deletion for a lone Delete or an Insertion for a lone Insert. -/
def buildChangeUnitsSpec : List Diff → List ChangeUnit
  | [] => []
  | ⟨DiffOp.equal, _⟩ :: rest => buildChangeUnitsSpec rest
  | ⟨DiffOp.delete, t⟩ :: ⟨DiffOp.insert, t2⟩ :: rest2 =>
      ChangeUnit.substitution t t2 :: buildChangeUnitsSpec rest2
  | ⟨DiffOp.delete, t⟩ :: rest => ChangeUnit.deletion t :: buildChangeUnitsSpec rest
  | ⟨DiffOp.insert, t⟩ :: rest => ChangeUnit.insertion t :: buildChangeUnitsSpec rest

/-- Encoding of a spec-level change unit as the DiffChange record the source
produces: a substitution is a Delete-typed change whose text splices the
arrow marker between the two texts, and every unit starts Undecided. -/
def encodeUnit : ChangeUnit → DiffChange
  | ChangeUnit.substitution a b => ⟨DiffOp.delete, a ++ arrow ++ b, false, false⟩
  | ChangeUnit.deletion a => ⟨DiffOp.delete, a, false, false⟩
  | ChangeUnit.insertion b => ⟨DiffOp.insert, b, false, false⟩

theorem parse_eq_spec_units (ds : List Diff) :
    parseDiffSpans ds = (buildChangeUnitsSpec ds).map encodeUnit := by
  induction ds using parseDiffSpans.induct with
  | case1 => simp [parseDiffSpans, buildChangeUnitsSpec]
  | case2 t rest ih => simp only [parseDiffSpans, buildChangeUnitsSpec]; exact ih
  | case3 t t2 rest2 ih =>
      simp only [parseDiffSpans, buildChangeUnitsSpec, List.map_cons, encodeUnit]
      rw [ih]
  | case4 t rest hni ih =>
      rw [parse_delete_cons t rest hni]
      have : buildChangeUnitsSpec (⟨DiffOp.delete, t⟩ :: rest) =
          ChangeUnit.deletion t :: buildChangeUnitsSpec rest := by
        match rest with
        | [] => rfl
        | ⟨DiffOp.equal, t2⟩ :: rest2 => rfl
        | ⟨DiffOp.delete, t2⟩ :: rest2 => rfl
        | ⟨DiffOp.insert, t2⟩ :: rest2 => exact absurd rfl (hni t2 rest2)
      rw [this, List.map_cons, encodeUnit, ih]
  | case5 t rest ih =>
      simp only [parseDiffSpans, buildChangeUnitsSpec, List.map_cons, encodeUnit]
      rw [ih]

/-- Every change the builder produces starts with both decision flags false. -/
theorem parse_flags_false (ds : List Diff) :
    ∀ ch ∈ parseDiffSpans ds, ch.Applied = false ∧ ch.Skipped = false := by
  rw [parse_eq_spec_units]
  intro ch hch
  obtain ⟨u, _, rfl⟩ := List.mem_map.mp hch
  cases u <;> simp [encodeUnit]

/-- Parsing a span list with only Equal spans yields no change units. -/
theorem parse_all_equal (ds : List Diff) :
    (∀ d ∈ ds, d.type = DiffOp.equal) → parseDiffSpans ds = [] := by
  induction ds with
  | nil => intro _; rfl
  | cons d rest ih =>
      intro h
      have hd := h d (List.mem_cons_self _ _)
      obtain ⟨op, t⟩ := d
      simp only at hd
      subst hd
      simp only [parseDiffSpans]
      exact ih (fun x hx => h x (List.mem_cons_of_mem _ hx))

/-- The decision policy the source actually gives an Undecided change: a
substitution (arrow-marked change) keeps the original, a lone deletion is
dropped as if applied, an insertion is suppressed as if skipped. -/
def resolveUndecided (ch : DiffChange) : DiffChange :=
  if ch.Applied = true ∨ ch.Skipped = true then ch
  else if ch.type = DiffOp.insert then { ch with Skipped := true }
  else if containsArrow ch.Text = true then { ch with Skipped := true }
  else { ch with Applied := true }

theorem resolveUndecided_fields (ch : DiffChange) :
    (resolveUndecided ch).type = ch.type ∧ (resolveUndecided ch).Text = ch.Text := by
  unfold resolveUndecided
  split <;> try exact ⟨rfl, rfl⟩
  split
  · exact ⟨rfl, rfl⟩
  · split <;> exact ⟨rfl, rfl⟩

theorem resolve_applied_of_arrow (ch : DiffChange)
    (h : containsArrow ch.Text = true) :
    (resolveUndecided ch).Applied = ch.Applied := by
  unfold resolveUndecided
  split
  · rfl
  · split
    · rfl
    · rfl

theorem resolve_skipped_of_plain_delete (ch : DiffChange)
    (h1 : ch.type = DiffOp.delete) (h2 : containsArrow ch.Text = false) :
    (resolveUndecided ch).Skipped = ch.Skipped := by
  unfold resolveUndecided
  split
  · rfl
  · split
    · simp_all
    · split
      · simp_all
      · rfl

theorem resolve_applied_of_insert (ch : DiffChange)
    (h : ch.type = DiffOp.insert) :
    (resolveUndecided ch).Applied = ch.Applied := by
  unfold resolveUndecided
  split
  · rfl
  · rfl

/-- Replay treats each change exactly as its resolveUndecided image: the
Undecided column of the engine is substitution ↦ keep original,
deletion ↦ drop (as Applied), insertion ↦ suppress (as Skipped). -/
theorem replay_resolve_undecided (ds : List Diff) (chs : List DiffChange) :
    buildReviewedSpans ds (chs.map resolveUndecided) = buildReviewedSpans ds chs := by
  induction ds, chs using buildReviewedSpans.induct with
  | case1 chs => simp [buildReviewedSpans]
  | case2 t rest chs ih =>
      simp only [buildReviewedSpans]
      rw [ih]
  | case3 t t2 rest2 ch chTail harr ih =>
      simp only [List.map_cons, buildReviewedSpans]
      rw [if_pos ((resolveUndecided_fields ch).2 ▸ harr), if_pos harr,
        resolve_applied_of_arrow ch harr, ih]
  | case4 t t2 rest2 ch chTail harr ih =>
      simp only [List.map_cons, buildReviewedSpans]
      rw [if_neg ((resolveUndecided_fields ch).2 ▸ harr), if_neg harr,
        ← List.map_cons, ih]
  | case5 t t2 rest2 ih =>
      simp only [List.map_nil, buildReviewedSpans]
  | case6 t rest hni ch chTail hcond ih =>
      rw [List.map_cons, replay_delete_cons t rest _ hni,
        replay_delete_cons t rest _ hni]
      dsimp only
      have hcond2 : (resolveUndecided ch).type = DiffOp.delete ∧
          containsArrow (resolveUndecided ch).Text = false :=
        ⟨(resolveUndecided_fields ch).1 ▸ hcond.1,
          (resolveUndecided_fields ch).2 ▸ hcond.2⟩
      rw [if_pos hcond2, if_pos hcond,
        resolve_skipped_of_plain_delete ch hcond.1 hcond.2, ih]
  | case7 t rest hni ch chTail hcond ih =>
      rw [List.map_cons, replay_delete_cons t rest _ hni,
        replay_delete_cons t rest _ hni]
      dsimp only
      have hcond2 : ¬((resolveUndecided ch).type = DiffOp.delete ∧
          containsArrow (resolveUndecided ch).Text = false) := by
        rw [(resolveUndecided_fields ch).1, (resolveUndecided_fields ch).2]
        exact hcond
      rw [if_neg hcond2, if_neg hcond, ← List.map_cons, ih]
  | case8 t rest hni ih =>
      rw [List.map_nil, replay_delete_cons t rest _ hni]
  | case9 t rest ch chTail hcond ih =>
      simp only [List.map_cons, buildReviewedSpans]
      have hcond2 : (resolveUndecided ch).type = DiffOp.insert ∧
          containsArrow (resolveUndecided ch).Text = false :=
        ⟨(resolveUndecided_fields ch).1 ▸ hcond.1,
          (resolveUndecided_fields ch).2 ▸ hcond.2⟩
      rw [if_pos hcond2, if_pos hcond,
        resolve_applied_of_insert ch hcond.1, ih]
  | case10 t rest ch chTail hcond ih =>
      simp only [List.map_cons, buildReviewedSpans]
      have hcond2 : ¬((resolveUndecided ch).type = DiffOp.insert ∧
          containsArrow (resolveUndecided ch).Text = false) := by
        rw [(resolveUndecided_fields ch).1, (resolveUndecided_fields ch).2]
        exact hcond
      rw [if_neg hcond2, if_neg hcond, ← List.map_cons, ih]
  | case11 t rest ih =>
      simp only [List.map_nil, buildReviewedSpans]

end Grammr

namespace Grammr

/-- The two UI modes relevant to a review session: ModeReviewDiff while
reviewing and ModeGlobal otherwise (all non-review modes collapsed). -/
inductive Mode where
  | global : Mode
  | reviewDiff : Mode
deriving DecidableEq, Repr

/-- Status line contents written by the review handler, one constructor per
format string of the source (carrying whether the clipboard copy succeeded). -/
inductive Status where
  | reviewing (cur total : Nat) : Status
  | allReviewed (copyOk : Bool) : Status
  | exited (copyOk : Bool) : Status
  | noChanges : Status
  | other : Status
deriving DecidableEq, Repr

/-- The review-relevant fields of the Model struct of app.go. -/
structure Model where
  mode : Mode
  originalText : List Char
  correctedText : List Char
  reviewedText : List Char
  diffChanges : List DiffChange
  currentChange : Nat
  showDiff : Bool
  status : Status
deriving DecidableEq, Repr

/-- Keys the review handler distinguishes: tab (apply), space (skip),
esc (exit), anything else. -/
inductive Key where
  | tab : Key
  | space : Key
  | esc : Key
  | other : Key
deriving DecidableEq, Repr

/-- In-place update of the decision flags at an index, mirroring the two Go
assignments diffChanges[i].Applied = a; diffChanges[i].Skipped = s. -/
def setDecision : List DiffChange → Nat → Bool → Bool → List DiffChange
  | [], _, _, _ => []
  | ch :: rest, 0, a, s => { ch with Applied := a, Skipped := s } :: rest
  | ch :: rest, Nat.succ n, a, s => ch :: setDecision rest n a s

theorem setDecision_length (chs : List DiffChange) (i : Nat) (a s : Bool) :
    (setDecision chs i a s).length = chs.length := by
  induction chs generalizing i with
  | nil => rfl
  | cons ch rest ih =>
      cases i with
      | zero => rfl
      | succ n => simp [setDecision, ih]

theorem setDecision_mem (chs : List DiffChange) (i : Nat) (a s : Bool) :
    ∀ ch ∈ setDecision chs i a s,
      ch ∈ chs ∨ ∃ ch0 ∈ chs, ch = { ch0 with Applied := a, Skipped := s } := by
  induction chs generalizing i with
  | nil => intro ch hch; cases hch
  | cons c rest ih =>
      cases i with
      | zero =>
          intro ch hch
          rcases List.mem_cons.mp hch with h | h
          · exact Or.inr ⟨c, List.mem_cons_self _ _, h⟩
          · exact Or.inl (List.mem_cons_of_mem _ h)
      | succ n =>
          intro ch hch
          rcases List.mem_cons.mp hch with h | h
          · exact Or.inl (h ▸ List.mem_cons_self _ _)
          · rcases ih n ch h with h2 | ⟨ch0, h0, he⟩
            · exact Or.inl (List.mem_cons_of_mem _ h2)
            · exact Or.inr ⟨ch0, List.mem_cons_of_mem _ h0, he⟩

/-- Shared body of the tab and space branches of handleReviewMode (app.go):
guard the cursor, write the decision flags a/s at the cursor, rebuild the
reviewed text, advance, and when the cursor passes the end rebuild once more,
promote the result to correctedText, hand it to the clipboard and leave
review mode.  copyOk reports whether the external clipboard call succeeded
and only influences the status line. -/
def applyDecisionStep (diff : List Char → List Char → List Diff)
    (m : Model) (copyOk a s : Bool) : Model × Option (List Char) :=
  if m.currentChange < m.diffChanges.length then
    if (setDecision m.diffChanges m.currentChange a s).length ≤ m.currentChange + 1 then
      ({ m with
          diffChanges := setDecision m.diffChanges m.currentChange a s,
          reviewedText := buildReviewedTextFromDiffs diff m.originalText m.correctedText
            (setDecision m.diffChanges m.currentChange a s),
          currentChange := m.currentChange + 1,
          correctedText := buildReviewedTextFromDiffs diff m.originalText m.correctedText
            (setDecision m.diffChanges m.currentChange a s),
          showDiff := false,
          status := Status.allReviewed copyOk,
          mode := Mode.global },
        some (buildReviewedTextFromDiffs diff m.originalText m.correctedText
          (setDecision m.diffChanges m.currentChange a s)))
    else
      ({ m with
          diffChanges := setDecision m.diffChanges m.currentChange a s,
          reviewedText := buildReviewedTextFromDiffs diff m.originalText m.correctedText
            (setDecision m.diffChanges m.currentChange a s),
          currentChange := m.currentChange + 1,
          status := Status.reviewing (m.currentChange + 2)
            (setDecision m.diffChanges m.currentChange a s).length }, none)
  else (m, none)

/-- Model of the handleReviewMode key handler of app.go: tab applies the
current change (Applied=true, Skipped=false) and advances, space skips it
(Applied=false, Skipped=true) and advances, esc finalizes immediately from
any cursor; the returned option is the text handed to clipboard.Copy. -/
def handleReviewMode (diff : List Char → List Char → List Diff)
    (m : Model) (k : Key) (copyOk : Bool) : Model × Option (List Char) :=
  match k with
  | Key.tab => applyDecisionStep diff m copyOk true false
  | Key.space => applyDecisionStep diff m copyOk false true
  | Key.esc =>
      ({ m with
          reviewedText := buildReviewedTextFromDiffs diff m.originalText m.correctedText
            m.diffChanges,
          correctedText := buildReviewedTextFromDiffs diff m.originalText m.correctedText
            m.diffChanges,
          showDiff := false,
          status := Status.exited copyOk,
          mode := Mode.global },
        some (buildReviewedTextFromDiffs diff m.originalText m.correctedText m.diffChanges))
  | Key.other => (m, none)

/-- Key dispatch of the Update loop: keys reach handleReviewMode exactly when
the mode is ModeReviewDiff; otherwise the review state is untouched. -/
def stepModel (diff : List Char → List Char → List Diff)
    (m : Model) (k : Key) (copyOk : Bool) : Model × Option (List Char) :=
  if m.mode = Mode.reviewDiff then handleReviewMode diff m k copyOk else (m, none)

/-- Model of the review-entry branch of handleGlobalMode (key "a"): with both
texts nonempty, rebuild the change list, reset the cursor, and enter review
mode when there is at least one change. -/
def enterReviewMode (diff : List Char → List Char → List Diff) (m : Model) : Model :=
  if m.originalText ≠ [] ∧ m.correctedText ≠ [] then
    let chs := parseDiffIntoChanges diff m.originalText m.correctedText
    if 0 < chs.length then
      { m with
        diffChanges := chs,
        currentChange := 0,
        mode := Mode.reviewDiff,
        reviewedText := buildReviewedTextFromDiffs diff m.originalText m.correctedText chs,
        status := Status.reviewing 1 chs.length }
    else
      { m with
        diffChanges := chs,
        currentChange := 0,
        status := Status.noChanges }
  else m

/-- States of a review session: entered through the global-mode "a" branch
and then driven one key at a time through the dispatcher. -/
inductive SessionReachable (diff : List Char → List Char → List Diff) : Model → Prop where
  | enter (m : Model) (hmode : m.mode = Mode.global)
      (hrev : (enterReviewMode diff m).mode = Mode.reviewDiff) :
      SessionReachable diff (enterReviewMode diff m)
  | step (m : Model) (k : Key) (copyOk : Bool) (h : SessionReachable diff m) :
      SessionReachable diff (stepModel diff m k copyOk).fst

end Grammr

namespace Grammr

theorem stepModel_not_review (diff : List Char → List Char → List Diff)
    (m : Model) (k : Key) (b : Bool) (h : ¬ m.mode = Mode.reviewDiff) :
    stepModel diff m k b = (m, none) := by
  unfold stepModel
  rw [if_neg h]

theorem stepModel_review (diff : List Char → List Char → List Diff)
    (m : Model) (k : Key) (b : Bool) (h : m.mode = Mode.reviewDiff) :
    stepModel diff m k b = handleReviewMode diff m k b := by
  unfold stepModel
  rw [if_pos h]

theorem applyStep_guard_fail (diff : List Char → List Char → List Diff)
    (m : Model) (copyOk a s : Bool)
    (h : ¬ m.currentChange < m.diffChanges.length) :
    applyDecisionStep diff m copyOk a s = (m, none) := by
  unfold applyDecisionStep
  rw [if_neg h]

theorem applyStep_fin (diff : List Char → List Char → List Diff)
    (m : Model) (copyOk a s : Bool)
    (hg : m.currentChange < m.diffChanges.length)
    (hfin : m.diffChanges.length ≤ m.currentChange + 1) :
    applyDecisionStep diff m copyOk a s =
      ({ m with
          diffChanges := setDecision m.diffChanges m.currentChange a s,
          reviewedText := buildReviewedTextFromDiffs diff m.originalText m.correctedText
            (setDecision m.diffChanges m.currentChange a s),
          currentChange := m.currentChange + 1,
          correctedText := buildReviewedTextFromDiffs diff m.originalText m.correctedText
            (setDecision m.diffChanges m.currentChange a s),
          showDiff := false,
          status := Status.allReviewed copyOk,
          mode := Mode.global },
        some (buildReviewedTextFromDiffs diff m.originalText m.correctedText
          (setDecision m.diffChanges m.currentChange a s))) := by
  unfold applyDecisionStep
  rw [if_pos hg, if_pos (by rw [setDecision_length]; exact hfin)]

theorem applyStep_mid (diff : List Char → List Char → List Diff)
    (m : Model) (copyOk a s : Bool)
    (hg : m.currentChange < m.diffChanges.length)
    (hmid : m.currentChange + 1 < m.diffChanges.length) :
    applyDecisionStep diff m copyOk a s =
      ({ m with
          diffChanges := setDecision m.diffChanges m.currentChange a s,
          reviewedText := buildReviewedTextFromDiffs diff m.originalText m.correctedText
            (setDecision m.diffChanges m.currentChange a s),
          currentChange := m.currentChange + 1,
          status := Status.reviewing (m.currentChange + 2)
            (setDecision m.diffChanges m.currentChange a s).length }, none) := by
  unfold applyDecisionStep
  rw [if_pos hg, if_neg (by rw [setDecision_length]; omega)]

/-- Session invariant: the cursor never passes the end of the change list,
and while still in review mode it is strictly before the end. -/
theorem session_inv (diff : List Char → List Char → List Diff) (m : Model)
    (h : SessionReachable diff m) :
    m.currentChange ≤ m.diffChanges.length ∧
    (m.mode = Mode.reviewDiff → m.currentChange < m.diffChanges.length) := by
  induction h with
  | enter m hmode hrev =>
      unfold enterReviewMode at hrev ⊢
      by_cases h1 : (m.originalText ≠ [] ∧ m.correctedText ≠ [])
      · rw [if_pos h1] at hrev ⊢
        by_cases h2 : 0 < (parseDiffIntoChanges diff m.originalText m.correctedText).length
        · rw [if_pos h2]
          exact ⟨Nat.le_of_lt h2, fun _ => h2⟩
        · rw [if_neg h2] at hrev
          exact absurd hrev (by simp [hmode])
      · rw [if_neg h1] at hrev
        exact absurd hrev (by simp [hmode])
  | step m k copyOk hreach ih =>
      by_cases hmode : m.mode = Mode.reviewDiff
      · rw [stepModel_review diff m k copyOk hmode]
        cases k with
        | tab =>
            show _ ∧ _
            rw [show handleReviewMode diff m Key.tab copyOk =
              applyDecisionStep diff m copyOk true false from rfl]
            by_cases hg : m.currentChange < m.diffChanges.length
            · by_cases hfin : m.diffChanges.length ≤ m.currentChange + 1
              · rw [applyStep_fin diff m copyOk true false hg hfin]
                refine ⟨?_, fun hc => absurd hc (by simp)⟩
                simp [setDecision_length]
                omega
              · rw [applyStep_mid diff m copyOk true false hg (by omega)]
                refine ⟨?_, fun _ => ?_⟩ <;> simp [setDecision_length, hmode] <;> omega
            · rw [applyStep_guard_fail diff m copyOk true false hg]
              exact ih
        | space =>
            show _ ∧ _
            rw [show handleReviewMode diff m Key.space copyOk =
              applyDecisionStep diff m copyOk false true from rfl]
            by_cases hg : m.currentChange < m.diffChanges.length
            · by_cases hfin : m.diffChanges.length ≤ m.currentChange + 1
              · rw [applyStep_fin diff m copyOk false true hg hfin]
                refine ⟨?_, fun hc => absurd hc (by simp)⟩
                simp [setDecision_length]
                omega
              · rw [applyStep_mid diff m copyOk false true hg (by omega)]
                refine ⟨?_, fun _ => ?_⟩ <;> simp [setDecision_length, hmode] <;> omega
            · rw [applyStep_guard_fail diff m copyOk false true hg]
              exact ih
        | esc =>
            refine ⟨ih.1, fun hc => absurd hc (by simp [handleReviewMode])⟩
        | other =>
            exact ih
      · rw [stepModel_not_review diff m k copyOk hmode]
        exact ih

end Grammr

namespace Grammr

/-- Flags invariant: no change ever has both decision flags set in any
session-reachable state. -/
theorem session_flags_inv (diff : List Char → List Char → List Diff) (m : Model)
    (h : SessionReachable diff m) :
    ∀ ch ∈ m.diffChanges, ¬(ch.Applied = true ∧ ch.Skipped = true) := by
  induction h with
  | enter m hmode hrev =>
      unfold enterReviewMode at hrev ⊢
      by_cases h1 : (m.originalText ≠ [] ∧ m.correctedText ≠ [])
      · rw [if_pos h1] at hrev ⊢
        by_cases h2 : 0 < (parseDiffIntoChanges diff m.originalText m.correctedText).length
        · rw [if_pos h2]
          intro ch hch
          have := (parse_flags_false _ ch hch).1
          simp [this]
        · rw [if_neg h2] at hrev
          exact absurd hrev (by simp [hmode])
      · rw [if_neg h1] at hrev
        exact absurd hrev (by simp [hmode])
  | step m k copyOk hreach ih =>
      by_cases hmode : m.mode = Mode.reviewDiff
      · rw [stepModel_review diff m k copyOk hmode]
        cases k with
        | tab =>
            rw [show handleReviewMode diff m Key.tab copyOk =
              applyDecisionStep diff m copyOk true false from rfl]
            by_cases hg : m.currentChange < m.diffChanges.length
            · have hset : ∀ ch ∈ setDecision m.diffChanges m.currentChange true false,
                  ¬(ch.Applied = true ∧ ch.Skipped = true) := by
                intro ch hch
                rcases setDecision_mem _ _ _ _ ch hch with h2 | ⟨ch0, _, rfl⟩
                · exact ih ch h2
                · simp
              by_cases hfin : m.diffChanges.length ≤ m.currentChange + 1
              · rw [applyStep_fin diff m copyOk true false hg hfin]
                exact hset
              · rw [applyStep_mid diff m copyOk true false hg (by omega)]
                exact hset
            · rw [applyStep_guard_fail diff m copyOk true false hg]
              exact ih
        | space =>
            rw [show handleReviewMode diff m Key.space copyOk =
              applyDecisionStep diff m copyOk false true from rfl]
            by_cases hg : m.currentChange < m.diffChanges.length
            · have hset : ∀ ch ∈ setDecision m.diffChanges m.currentChange false true,
                  ¬(ch.Applied = true ∧ ch.Skipped = true) := by
                intro ch hch
                rcases setDecision_mem _ _ _ _ ch hch with h2 | ⟨ch0, _, rfl⟩
                · exact ih ch h2
                · simp
              by_cases hfin : m.diffChanges.length ≤ m.currentChange + 1
              · rw [applyStep_fin diff m copyOk false true hg hfin]
                exact hset
              · rw [applyStep_mid diff m copyOk false true hg (by omega)]
                exact hset
            · rw [applyStep_guard_fail diff m copyOk false true hg]
              exact ih
        | esc => exact ih
        | other => exact ih
      · rw [stepModel_not_review diff m k copyOk hmode]
        exact ih

end Grammr

namespace Grammr

/-- Driving a model through a list of key events, collecting every text the
session hands to the clipboard sink. -/
def runReview (diff : List Char → List Char → List Diff) :
    Model → List (Key × Bool) → Model × List (List Char)
  | m, [] => (m, [])
  | m, kb :: rest =>
      ((runReview diff (stepModel diff m kb.1 kb.2).1 rest).1,
        (stepModel diff m kb.1 kb.2).2.toList ++
          (runReview diff (stepModel diff m kb.1 kb.2).1 rest).2)

/-- Once out of review mode the dispatcher never changes the model or commits. -/
theorem run_global (diff : List Char → List Char → List Diff)
    (inputs : List (Key × Bool)) (m : Model) (h : ¬ m.mode = Mode.reviewDiff) :
    runReview diff m inputs = (m, []) := by
  induction inputs with
  | nil => rfl
  | cons kb rest ih =>
      unfold runReview
      rw [stepModel_not_review diff m kb.1 kb.2 h]
      simp [ih]

/-- Shape of one dispatched step from review mode: either the session stays
in review mode and commits nothing, or it leaves review mode and commits
exactly the rebuilt text, which is also stored as the corrected text. -/
theorem step_shape (diff : List Char → List Char → List Diff)
    (m : Model) (k : Key) (b : Bool) (hmode : m.mode = Mode.reviewDiff) :
    ((stepModel diff m k b).1.mode = Mode.reviewDiff ∧ (stepModel diff m k b).2 = none) ∨
    ((stepModel diff m k b).1.mode = Mode.global ∧
      (stepModel diff m k b).2 = some (stepModel diff m k b).1.reviewedText ∧
      (stepModel diff m k b).1.correctedText = (stepModel diff m k b).1.reviewedText) := by
  rw [stepModel_review diff m k b hmode]
  cases k with
  | tab =>
      rw [show handleReviewMode diff m Key.tab b =
        applyDecisionStep diff m b true false from rfl]
      by_cases hg : m.currentChange < m.diffChanges.length
      · by_cases hfin : m.diffChanges.length ≤ m.currentChange + 1
        · rw [applyStep_fin diff m b true false hg hfin]
          exact Or.inr ⟨rfl, rfl, rfl⟩
        · rw [applyStep_mid diff m b true false hg (by omega)]
          exact Or.inl ⟨hmode, rfl⟩
      · rw [applyStep_guard_fail diff m b true false hg]
        exact Or.inl ⟨hmode, rfl⟩
  | space =>
      rw [show handleReviewMode diff m Key.space b =
        applyDecisionStep diff m b false true from rfl]
      by_cases hg : m.currentChange < m.diffChanges.length
      · by_cases hfin : m.diffChanges.length ≤ m.currentChange + 1
        · rw [applyStep_fin diff m b false true hg hfin]
          exact Or.inr ⟨rfl, rfl, rfl⟩
        · rw [applyStep_mid diff m b false true hg (by omega)]
          exact Or.inl ⟨hmode, rfl⟩
      · rw [applyStep_guard_fail diff m b false true hg]
        exact Or.inl ⟨hmode, rfl⟩
  | esc => exact Or.inr ⟨rfl, rfl, rfl⟩
  | other => exact Or.inl ⟨hmode, rfl⟩

/-- Run analysis from review mode: at most one commit happens, it happens
exactly when the session has left review mode, and the committed text is the
final corrected (and reviewed) text of the run. -/
theorem run_commits (diff : List Char → List Char → List Diff) :
    ∀ (inputs : List (Key × Bool)) (m : Model), m.mode = Mode.reviewDiff →
    (runReview diff m inputs).2.length ≤ 1 ∧
    ((runReview diff m inputs).1.mode = Mode.global ↔
      (runReview diff m inputs).2.length = 1) ∧
    (∀ t ∈ (runReview diff m inputs).2,
      t = (runReview diff m inputs).1.correctedText ∧
      t = (runReview diff m inputs).1.reviewedText) := by
  intro inputs
  induction inputs with
  | nil =>
      intro m hmode
      refine ⟨by simp [runReview], ?_, by simp [runReview]⟩
      simp only [runReview]
      constructor
      · intro hg; rw [hmode] at hg; cases hg
      · intro hl; simp at hl
  | cons kb rest ih =>
      intro m hmode
      rcases step_shape diff m kb.1 kb.2 hmode with ⟨hm2, hn⟩ | ⟨hm2, hs, hc⟩
      · have := ih (stepModel diff m kb.1 kb.2).1 hm2
        unfold runReview
        rw [hn]
        simpa using this
      · have hrest : runReview diff (stepModel diff m kb.1 kb.2).1 rest =
            ((stepModel diff m kb.1 kb.2).1, []) :=
          run_global diff rest _ (by rw [hm2]; intro hx; cases hx)
        unfold runReview
        rw [hs, hrest, hm2]
        refine ⟨by simp, by simp, ?_⟩
        intro t ht
        simp only [Option.toList_some, List.append_nil, List.mem_singleton] at ht
        subst ht
        exact ⟨hc.symm ▸ rfl, rfl⟩

end Grammr

namespace Grammr

/-- Projection hiding the status line, the only model field the clipboard
outcome can influence. -/
def stripStatus (m : Model) : Model := { m with status := Status.other }

/-- One dispatched step depends on the clipboard outcome only through the
status line: models equal up to status step to models equal up to status,
with identical commits. -/
theorem step_strip (diff : List Char → List Char → List Diff)
    (m1 m2 : Model) (k : Key) (b1 b2 : Bool) (h : stripStatus m1 = stripStatus m2) :
    stripStatus (stepModel diff m1 k b1).1 = stripStatus (stepModel diff m2 k b2).1 ∧
    (stepModel diff m1 k b1).2 = (stepModel diff m2 k b2).2 := by
  obtain ⟨mo1, o1, c1, r1, d1, cur1, sd1, st1⟩ := m1
  obtain ⟨mo2, o2, c2, r2, d2, cur2, sd2, st2⟩ := m2
  simp only [stripStatus, Model.mk.injEq] at h
  obtain ⟨rfl, rfl, rfl, rfl, rfl, rfl, rfl, -⟩ := h
  by_cases hmode : mo1 = Mode.reviewDiff
  · rw [stepModel_review diff _ k b1 hmode, stepModel_review diff _ k b2 hmode]
    cases k with
    | tab =>
        rw [show (handleReviewMode diff ⟨mo1, o1, c1, r1, d1, cur1, sd1, st1⟩ Key.tab b1) =
          applyDecisionStep diff ⟨mo1, o1, c1, r1, d1, cur1, sd1, st1⟩ b1 true false from rfl,
          show (handleReviewMode diff ⟨mo1, o1, c1, r1, d1, cur1, sd1, st2⟩ Key.tab b2) =
          applyDecisionStep diff ⟨mo1, o1, c1, r1, d1, cur1, sd1, st2⟩ b2 true false from rfl]
        by_cases hg : cur1 < d1.length
        · by_cases hfin : d1.length ≤ cur1 + 1
          · rw [applyStep_fin diff _ b1 true false hg hfin,
              applyStep_fin diff _ b2 true false hg hfin]
            exact ⟨rfl, rfl⟩
          · rw [applyStep_mid diff _ b1 true false hg (by show cur1 + 1 < d1.length; omega),
              applyStep_mid diff _ b2 true false hg (by show cur1 + 1 < d1.length; omega)]
            exact ⟨rfl, rfl⟩
        · rw [applyStep_guard_fail diff _ b1 true false hg,
            applyStep_guard_fail diff _ b2 true false hg]
          exact ⟨rfl, rfl⟩
    | space =>
        rw [show (handleReviewMode diff ⟨mo1, o1, c1, r1, d1, cur1, sd1, st1⟩ Key.space b1) =
          applyDecisionStep diff ⟨mo1, o1, c1, r1, d1, cur1, sd1, st1⟩ b1 false true from rfl,
          show (handleReviewMode diff ⟨mo1, o1, c1, r1, d1, cur1, sd1, st2⟩ Key.space b2) =
          applyDecisionStep diff ⟨mo1, o1, c1, r1, d1, cur1, sd1, st2⟩ b2 false true from rfl]
        by_cases hg : cur1 < d1.length
        · by_cases hfin : d1.length ≤ cur1 + 1
          · rw [applyStep_fin diff _ b1 false true hg hfin,
              applyStep_fin diff _ b2 false true hg hfin]
            exact ⟨rfl, rfl⟩
          · rw [applyStep_mid diff _ b1 false true hg (by show cur1 + 1 < d1.length; omega),
              applyStep_mid diff _ b2 false true hg (by show cur1 + 1 < d1.length; omega)]
            exact ⟨rfl, rfl⟩
        · rw [applyStep_guard_fail diff _ b1 false true hg,
            applyStep_guard_fail diff _ b2 false true hg]
          exact ⟨rfl, rfl⟩
    | esc => exact ⟨rfl, rfl⟩
    | other => exact ⟨rfl, rfl⟩
  · rw [stepModel_not_review diff _ k b1 hmode, stepModel_not_review diff _ k b2 hmode]
    exact ⟨rfl, rfl⟩

/-- A whole run depends on the clipboard outcomes only through the status
line: same key sequence, possibly different copy results, same commits and
same final model up to status. -/
theorem run_strip (diff : List Char → List Char → List Diff) :
    ∀ (inputs1 inputs2 : List (Key × Bool)) (m1 m2 : Model),
    inputs1.map Prod.fst = inputs2.map Prod.fst →
    stripStatus m1 = stripStatus m2 →
    stripStatus (runReview diff m1 inputs1).1 = stripStatus (runReview diff m2 inputs2).1 ∧
    (runReview diff m1 inputs1).2 = (runReview diff m2 inputs2).2 := by
  intro inputs1
  induction inputs1 with
  | nil =>
      intro inputs2 m1 m2 hk h
      cases inputs2 with
      | nil => exact ⟨h, rfl⟩
      | cons kb rest => simp at hk
  | cons kb1 rest1 ih =>
      intro inputs2 m1 m2 hk h
      cases inputs2 with
      | nil => simp at hk
      | cons kb2 rest2 =>
          simp only [List.map_cons, List.cons.injEq] at hk
          obtain ⟨hkey, hrest⟩ := hk
          unfold runReview
          rw [show kb2.1 = kb1.1 from hkey.symm]
          have hstep := step_strip diff m1 m2 kb1.1 kb1.2 kb2.2 h
          have hih := ih rest2 (stepModel diff m1 kb1.1 kb1.2).1
            (stepModel diff m2 kb1.1 kb2.2).1 hrest hstep.1
          exact ⟨hih.1, by rw [hstep.2, hih.2]⟩

end Grammr

namespace Grammr

theorem naiveDiff_valid : DiffValid naiveDiff := by
  intro a b
  unfold naiveDiff
  by_cases hab : a = b
  · subst hab
    by_cases ha : a = [] <;> simp [ha, reconstructOrig, reconstructCorr]
  · rw [if_neg hab]
    by_cases ha : a = [] <;> by_cases hb : b = [] <;>
      simp [ha, hb, reconstructOrig, reconstructCorr]

theorem naiveDiff_self : ∀ a : List Char, ∀ d ∈ naiveDiff a a, d.type = DiffOp.equal := by
  intro a d hd
  unfold naiveDiff at hd
  rw [if_pos rfl] at hd
  by_cases ha : a = []
  · rw [if_pos ha] at hd
    cases hd
  · rw [if_neg ha] at hd
    rcases List.mem_singleton.mp hd with rfl
    rfl

theorem mode_eq_global_of_ne {mo : Mode} (h : ¬ mo = Mode.reviewDiff) : mo = Mode.global := by
  cases mo with
  | global => rfl
  | reviewDiff => exact absurd rfl h

end Grammr

namespace Grammr

/-- C1 (counterexample): the accept-all guarantee fails as stated: for the
valid diff of original " → " against corrected "", the lone Delete span's
text contains the arrow marker, the replay mismatch branch keeps the
original, and accept-all does not return the corrected string. -/
theorem c1_counterexample :
    DiffValid naiveDiff ∧
    buildReviewedTextFromDiffs naiveDiff arrow []
      (allApplied (parseDiffIntoChanges naiveDiff arrow [])) ≠ ([] : List Char) :=
  ⟨naiveDiff_valid, by decide⟩

/-- C1 (amended): for every (original, corrected) pair whose diff has no
Delete or Insert span text containing the literal " → " marker, replaying
the change-unit list with every decision Applied returns exactly the
corrected string. -/
theorem c1_all_applied (diff : List Char → List Char → List Diff)
    (o c : List Char) (hvalid : DiffValid diff)
    (hfree : ArrowFreeSpans (diff o c)) :
    buildReviewedTextFromDiffs diff o c
      (allApplied (parseDiffIntoChanges diff o c)) = c := by
  unfold buildReviewedTextFromDiffs parseDiffIntoChanges
  rw [replay_all_applied _ hfree, (hvalid o c).2]

/-- C1 witness at the diff of "a" against "b". -/
theorem c1_all_applied_witness :
    DiffValid naiveDiff ∧ ArrowFreeSpans (naiveDiff ['a'] ['b']) ∧
    buildReviewedTextFromDiffs naiveDiff ['a'] ['b']
      (allApplied (parseDiffIntoChanges naiveDiff ['a'] ['b'])) = ['b'] :=
  ⟨naiveDiff_valid, by unfold ArrowFreeSpans; decide,
    c1_all_applied naiveDiff ['a'] ['b'] naiveDiff_valid
      (by unfold ArrowFreeSpans; decide)⟩

/-- C2: for every (original, corrected) pair, replaying the change-unit list
with every decision Skipped returns exactly the original string. -/
theorem c2_all_skipped (diff : List Char → List Char → List Diff)
    (o c : List Char) (hvalid : DiffValid diff) :
    buildReviewedTextFromDiffs diff o c
      (allSkipped (parseDiffIntoChanges diff o c)) = o := by
  unfold buildReviewedTextFromDiffs parseDiffIntoChanges
  rw [replay_skipped_like _ _ ?_, (hvalid o c).1]
  intro ch hch
  obtain ⟨x, _, rfl⟩ := List.mem_map.mp hch
  exact ⟨rfl, rfl⟩

/-- C2 witness at the diff of "a" against "b". -/
theorem c2_all_skipped_witness :
    DiffValid naiveDiff ∧
    buildReviewedTextFromDiffs naiveDiff ['a'] ['b']
      (allSkipped (parseDiffIntoChanges naiveDiff ['a'] ['b'])) = ['a'] :=
  ⟨naiveDiff_valid, c2_all_skipped naiveDiff ['a'] ['b'] naiveDiff_valid⟩

/-- C3 (counterexample): an Undecided lone Deletion does not emit its
original text: for original "a", corrected "" (one undecided Deletion
unit), replay returns "" rather than the original "a". -/
theorem c3_counterexample :
    DiffValid naiveDiff ∧
    buildReviewedTextFromDiffs naiveDiff ['a'] []
      (parseDiffIntoChanges naiveDiff ['a'] []) = ([] : List Char) ∧
    buildReviewedTextFromDiffs naiveDiff ['a'] []
      (parseDiffIntoChanges naiveDiff ['a'] []) ≠ ['a'] :=
  ⟨naiveDiff_valid, by decide, by decide⟩

/-- C3 (amended): replay resolves every Undecided unit exactly as
resolveUndecided prescribes — an Undecided Substitution keeps its original
text, an Undecided Deletion emits nothing (it is dropped as if Applied), and
an Undecided Insertion emits nothing — so any replay, including the one at a
mid-review exit with all units at or beyond the cursor Undecided, equals the
replay with those units so resolved. -/
theorem c3_undecided_policy (diff : List Char → List Char → List Diff)
    (o c : List Char) (chs : List DiffChange) :
    buildReviewedTextFromDiffs diff o c (chs.map resolveUndecided) =
      buildReviewedTextFromDiffs diff o c chs := by
  unfold buildReviewedTextFromDiffs
  exact replay_resolve_undecided _ _

/-- C5: the change builder is exactly the spec grouping algorithm — skip
Equal spans, merge each Delete immediately followed by an Insert into a
single Substitution consuming both spans, emit a Deletion for a lone Delete
and an Insertion for a lone Insert — with every produced unit Undecided. -/
theorem c5_builder_grouping (ds : List Diff) :
    parseDiffSpans ds = (buildChangeUnitsSpec ds).map encodeUnit ∧
    ∀ ch ∈ parseDiffSpans ds, ch.Applied = false ∧ ch.Skipped = false :=
  ⟨parse_eq_spec_units ds, parse_flags_false ds⟩

/-- C7: replay is deterministic — two results computed from identical
arguments are identical. -/
theorem c7_replay_deterministic (diff : List Char → List Char → List Diff)
    (o c : List Char) (chs : List DiffChange) (r1 r2 : List Char)
    (h1 : r1 = buildReviewedTextFromDiffs diff o c chs)
    (h2 : r2 = buildReviewedTextFromDiffs diff o c chs) : r1 = r2 :=
  h1.trans h2.symm

/-- C7 witness at concrete arguments. -/
theorem c7_replay_deterministic_witness :
    buildReviewedTextFromDiffs naiveDiff ['a'] ['b'] [] =
      buildReviewedTextFromDiffs naiveDiff ['a'] ['b'] [] :=
  c7_replay_deterministic naiveDiff ['a'] ['b'] [] _ _ rfl rfl

/-- C8: identical inputs yield an empty change list, and replaying the empty
list returns the original unchanged (using that the diff primitive emits
only Equal spans for identical inputs, as diffmatchpatch does). -/
theorem c8_identity (diff : List Char → List Char → List Diff)
    (o : List Char) (hvalid : DiffValid diff)
    (hself : ∀ a : List Char, ∀ d ∈ diff a a, d.type = DiffOp.equal) :
    parseDiffIntoChanges diff o o = [] ∧
    buildReviewedTextFromDiffs diff o o [] = o := by
  constructor
  · exact parse_all_equal _ (hself o)
  · unfold buildReviewedTextFromDiffs
    rw [replay_skipped_like _ [] (by simp), (hvalid o o).1]

/-- C8 witness at original "a". -/
theorem c8_identity_witness :
    parseDiffIntoChanges naiveDiff ['a'] ['a'] = [] ∧
    buildReviewedTextFromDiffs naiveDiff ['a'] ['a'] [] = ['a'] :=
  c8_identity naiveDiff ['a'] naiveDiff_valid naiveDiff_self

end Grammr

namespace Grammr

/-- C6: mismatch handling is defensive, not an error: replay reads no change
beyond the number of built change units (extra trailing changes are
ignored), appending only-Skipped changes — whose emission is exactly the
conservative column (substitutions and deletions keep the original text,
insertions emit nothing) — changes nothing, so a shorter list leaves every
remaining group resolved conservatively; in particular replay of the empty
list returns the original. -/
theorem c6_mismatch_handling (diff : List Char → List Char → List Diff)
    (o c : List Char) (chs : List DiffChange) (hvalid : DiffValid diff) :
    buildReviewedTextFromDiffs diff o c chs =
      buildReviewedTextFromDiffs diff o c
        (chs.take (parseDiffIntoChanges diff o c).length) ∧
    (∀ tl : List DiffChange, (∀ ch ∈ tl, ch.Applied = false ∧ ch.Skipped = true) →
      buildReviewedTextFromDiffs diff o c (chs ++ tl) =
        buildReviewedTextFromDiffs diff o c chs) ∧
    buildReviewedTextFromDiffs diff o c [] = o := by
  refine ⟨?_, ?_, ?_⟩
  · unfold buildReviewedTextFromDiffs parseDiffIntoChanges
    exact replay_take_invariant _ chs (chs.take (parseDiffSpans (diff o c)).length)
      (by rw [List.take_take, Nat.min_self])
  · intro tl htl
    unfold buildReviewedTextFromDiffs
    exact replay_append_skipped _ _ tl htl
  · unfold buildReviewedTextFromDiffs
    rw [replay_skipped_like _ [] (by simp), (hvalid o c).1]

/-- Concrete change list for the C6 witness: the one real unit applied. -/
def c6DemoChs : List DiffChange :=
  [⟨DiffOp.delete, ['a'] ++ arrow ++ ['b'], true, false⟩]

/-- Concrete skipped tail for the C6 witness. -/
def c6DemoTail : List DiffChange := [⟨DiffOp.delete, ['q'], false, true⟩]

/-- C6 witness at the diff of "a" against "b". -/
theorem c6_mismatch_handling_witness :
    DiffValid naiveDiff ∧
    buildReviewedTextFromDiffs naiveDiff ['a'] ['b'] c6DemoChs =
      buildReviewedTextFromDiffs naiveDiff ['a'] ['b']
        (c6DemoChs.take (parseDiffIntoChanges naiveDiff ['a'] ['b']).length) ∧
    buildReviewedTextFromDiffs naiveDiff ['a'] ['b'] (c6DemoChs ++ c6DemoTail) =
      buildReviewedTextFromDiffs naiveDiff ['a'] ['b'] c6DemoChs ∧
    buildReviewedTextFromDiffs naiveDiff ['a'] ['b'] [] = ['a'] :=
  ⟨naiveDiff_valid,
    (c6_mismatch_handling naiveDiff ['a'] ['b'] c6DemoChs naiveDiff_valid).1,
    (c6_mismatch_handling naiveDiff ['a'] ['b'] c6DemoChs naiveDiff_valid).2.1
      c6DemoTail (by decide),
    (c6_mismatch_handling naiveDiff ['a'] ['b'] c6DemoChs naiveDiff_valid).2.2⟩

end Grammr

namespace Grammr

/-- Concrete host state used to start demonstration review sessions:
global mode, original "a", corrected "b". -/
def reviewDemoModel : Model :=
  ⟨Mode.global, ['a'], ['b'], [], [], 0, true, Status.other⟩

/-- C4 (counterexample): the claimed invariant "Complete iff cursor ==
len(changeUnits)" fails: exiting mid-review leaves review mode (Complete)
without moving the cursor, giving a reachable state with cursor 0 and one
change unit. -/
theorem c4_counterexample :
    ¬ (∀ m : Model, SessionReachable naiveDiff m →
        (m.mode = Mode.global ↔ m.currentChange = m.diffChanges.length)) := by
  intro hall
  have hreach : SessionReachable naiveDiff
      (stepModel naiveDiff (enterReviewMode naiveDiff reviewDemoModel) Key.esc true).1 :=
    SessionReachable.step _ _ _
      (SessionReachable.enter reviewDemoModel rfl (by decide))
  have hbad := (hall _ hreach).mp (by decide)
  revert hbad
  decide

/-- C4 (amended): in every session-reachable state the cursor stays in
[0, len(changeUnits)] and cursor == len implies the review is Complete (out
of review mode); Apply and Skip advance the cursor by one while reviewing;
Exit transitions out of review mode from any cursor position, leaving the
cursor unchanged (so Complete with cursor < len is reachable and the
converse implication fails). -/
theorem c4_session_machine (diff : List Char → List Char → List Diff)
    (m : Model) (h : SessionReachable diff m) :
    m.currentChange ≤ m.diffChanges.length ∧
    (m.currentChange = m.diffChanges.length → m.mode = Mode.global) ∧
    (∀ b : Bool, m.mode = Mode.reviewDiff →
      (stepModel diff m Key.tab b).1.currentChange = m.currentChange + 1 ∧
      (stepModel diff m Key.space b).1.currentChange = m.currentChange + 1) ∧
    (∀ b : Bool, (stepModel diff m Key.esc b).1.mode = Mode.global ∧
      (stepModel diff m Key.esc b).1.currentChange = m.currentChange) := by
  have inv := session_inv diff m h
  refine ⟨inv.1, ?_, ?_, ?_⟩
  · intro hc
    by_contra hg
    have hrev : m.mode = Mode.reviewDiff := by
      cases hm : m.mode with
      | global => exact absurd hm hg
      | reviewDiff => rfl
    have := inv.2 hrev
    omega
  · intro b hmode
    have hg := inv.2 hmode
    constructor
    · rw [stepModel_review diff m Key.tab b hmode,
        show handleReviewMode diff m Key.tab b =
          applyDecisionStep diff m b true false from rfl]
      by_cases hfin : m.diffChanges.length ≤ m.currentChange + 1
      · rw [applyStep_fin diff m b true false hg hfin]
      · rw [applyStep_mid diff m b true false hg (by omega)]
    · rw [stepModel_review diff m Key.space b hmode,
        show handleReviewMode diff m Key.space b =
          applyDecisionStep diff m b false true from rfl]
      by_cases hfin : m.diffChanges.length ≤ m.currentChange + 1
      · rw [applyStep_fin diff m b false true hg hfin]
      · rw [applyStep_mid diff m b false true hg (by omega)]
  · intro b
    by_cases hmode : m.mode = Mode.reviewDiff
    · rw [stepModel_review diff m Key.esc b hmode]
      exact ⟨rfl, rfl⟩
    · rw [stepModel_not_review diff m Key.esc b hmode]
      exact ⟨mode_eq_global_of_ne hmode, rfl⟩

/-- C4 witness: the cursor bound at the freshly entered demonstration session. -/
theorem c4_session_machine_witness :
    (enterReviewMode naiveDiff reviewDemoModel).currentChange ≤
      (enterReviewMode naiveDiff reviewDemoModel).diffChanges.length :=
  (c4_session_machine naiveDiff _
    (SessionReachable.enter reviewDemoModel rfl (by decide))).1

/-- C10: in every session-reachable state no change unit has both decision
flags set: units are created Undecided (both false), Apply writes
(true, false) and Skip writes (false, true), so the two booleans always
encode a valid three-valued decision. -/
theorem c10_flags_exclusive (diff : List Char → List Char → List Diff)
    (m : Model) (h : SessionReachable diff m) :
    ∀ ch ∈ m.diffChanges, ¬(ch.Applied = true ∧ ch.Skipped = true) :=
  session_flags_inv diff m h

/-- C10 witness: the single unit of the freshly entered demonstration
session has not got both flags set. -/
theorem c10_flags_exclusive_witness :
    ¬((⟨DiffOp.delete, ['a'] ++ arrow ++ ['b'], false, false⟩ : DiffChange).Applied = true ∧
      (⟨DiffOp.delete, ['a'] ++ arrow ++ ['b'], false, false⟩ : DiffChange).Skipped = true) :=
  c10_flags_exclusive naiveDiff _
    (SessionReachable.enter reviewDemoModel rfl (by decide)) _ (by decide)

end Grammr

namespace Grammr

theorem stripStatus_mode (m : Model) : (stripStatus m).mode = m.mode := rfl

theorem stripStatus_corrected (m : Model) :
    (stripStatus m).correctedText = m.correctedText := rfl

/-- C9: over any key sequence driven from a review-mode state, the clipboard
commit happens at most once, exactly when the session finalizes (leaves
review mode), and the committed text is the final corrected (and reviewed)
text; flipping the clipboard success flags of the same key sequence changes
neither the commits nor the final mode nor the final corrected text — a
failed commit is non-fatal and the computed text remains available. -/
theorem c9_commit_once (diff : List Char → List Char → List Diff)
    (m0 : Model) (inputs inputs2 : List (Key × Bool))
    (hmode : m0.mode = Mode.reviewDiff)
    (hkeys : inputs.map Prod.fst = inputs2.map Prod.fst) :
    (runReview diff m0 inputs).2.length ≤ 1 ∧
    ((runReview diff m0 inputs).1.mode = Mode.global ↔
      (runReview diff m0 inputs).2.length = 1) ∧
    (∀ t ∈ (runReview diff m0 inputs).2,
      t = (runReview diff m0 inputs).1.correctedText ∧
      t = (runReview diff m0 inputs).1.reviewedText) ∧
    (runReview diff m0 inputs2).2 = (runReview diff m0 inputs).2 ∧
    (runReview diff m0 inputs2).1.mode = (runReview diff m0 inputs).1.mode ∧
    (runReview diff m0 inputs2).1.correctedText =
      (runReview diff m0 inputs).1.correctedText := by
  have hc := run_commits diff inputs m0 hmode
  have hs := run_strip diff inputs2 inputs m0 m0 hkeys.symm rfl
  refine ⟨hc.1, hc.2.1, hc.2.2, hs.2, ?_, ?_⟩
  · have h1 := congrArg Model.mode hs.1
    rwa [stripStatus_mode, stripStatus_mode] at h1
  · have h1 := congrArg Model.correctedText hs.1
    rwa [stripStatus_corrected, stripStatus_corrected] at h1

/-- C9 witness: a session exited at once, with failing then succeeding
clipboard, commits exactly once. -/
theorem c9_commit_once_witness :
    (runReview naiveDiff (enterReviewMode naiveDiff reviewDemoModel)
      [(Key.esc, false)]).2.length ≤ 1 ∧
    (runReview naiveDiff (enterReviewMode naiveDiff reviewDemoModel)
      [(Key.esc, true)]).2 =
      (runReview naiveDiff (enterReviewMode naiveDiff reviewDemoModel)
        [(Key.esc, false)]).2 :=
  ⟨(c9_commit_once naiveDiff (enterReviewMode naiveDiff reviewDemoModel)
      [(Key.esc, false)] [(Key.esc, true)] (by decide) rfl).1,
    (c9_commit_once naiveDiff (enterReviewMode naiveDiff reviewDemoModel)
      [(Key.esc, false)] [(Key.esc, true)] (by decide) rfl).2.2.2.1⟩

end Grammr
